import Mathlib

/-!
Verification of the `Radian` unit of the globe-rs repository
(`src/radian.rs`) against its natural-language specification.

The Rust `Float` type (an alias of `f64`) is modelled as an exact real
number extended with the three non-finite IEEE-754 payloads `nan`, `inf`
and `negInf`.  Arithmetic on finite values is exact real arithmetic; the
non-finite propagation rules follow IEEE-754 (and hence Rust `f64`)
semantics.  Rounding of finite results and signed zero are outside the
model: finite arithmetic is treated as exact.
-/

namespace GlobeRs

/-- Model of the Rust `Float` (`f64`) type: a finite exact real value, or
one of the non-finite IEEE-754 values. -/
inductive Float where
  | finite (x : ℝ)
  | nan
  | inf
  | negInf

/-- Modelled from the spec: the glossary defines "Full turn" as the
constant 2π, the period of angle normalization; `TAU` is not declared
under `src/`. -/
noncomputable def TAU : ℝ := 2 * Real.pi

/-- `v.is_finite` holds exactly on finite values. -/
def Float.is_finite : Float → Bool
  | .finite _ => true
  | _ => false

/-- Truncation towards zero, as performed by Rust's `f64` `%` operator on
the quotient: `⌊x⌋` for non-negative `x` and `⌈x⌉` for negative `x`. -/
noncomputable def ftrunc (x : ℝ) : ℝ := if 0 ≤ x then (⌊x⌋ : ℝ) else (⌈x⌉ : ℝ)

open Classical in
/-- Rust's `%` on `f64` (IEEE-754 remainder with the sign of the
dividend): for finite operands and a non-zero divisor the exact value
`x - y * trunc (x / y)`; `NaN` when the dividend is non-finite or the
divisor is zero or `NaN`; the dividend itself when the divisor is
infinite. -/
noncomputable def Float.rem : Float → Float → Float
  | .nan, _ => .nan
  | .inf, _ => .nan
  | .negInf, _ => .nan
  | .finite _, .nan => .nan
  | .finite x, .inf => .finite x
  | .finite x, .negInf => .finite x
  | .finite x, .finite y => if y = 0 then .nan else .finite (x - y * ftrunc (x / y))

/-- Rust's `+` on `f64`, restricted to the cases the model needs: exact
addition on finite values, `NaN` absorbing, and infinities of opposite
sign cancelling to `NaN`. -/
def Float.add : Float → Float → Float
  | .nan, _ => .nan
  | _, .nan => .nan
  | .inf, .negInf => .nan
  | .negInf, .inf => .nan
  | .inf, _ => .inf
  | _, .inf => .inf
  | .negInf, _ => .negInf
  | _, .negInf => .negInf
  | .finite x, .finite y => .finite (x + y)

open Classical in
/-- Rust's `*` on `f64`: exact multiplication on finite values, `NaN`
absorbing, `0 * ∞ = NaN`, and the usual sign rules for infinite
products. -/
noncomputable def Float.mul : Float → Float → Float
  | .nan, _ => .nan
  | _, .nan => .nan
  | .inf, .inf => .inf
  | .inf, .negInf => .negInf
  | .negInf, .inf => .negInf
  | .negInf, .negInf => .inf
  | .finite x, .inf => if x = 0 then .nan else if 0 < x then .inf else .negInf
  | .inf, .finite x => if x = 0 then .nan else if 0 < x then .inf else .negInf
  | .finite x, .negInf => if x = 0 then .nan else if 0 < x then .negInf else .inf
  | .negInf, .finite x => if x = 0 then .nan else if 0 < x then .negInf else .inf
  | .finite x, .finite y => .finite (x * y)

/-- Rust's `f64::is_sign_negative`, as used by the normalization branch:
true for negative finite values and negative infinity.  (Signed zero and
the `NaN` sign bit are outside the model; the source only reaches this
test on values outside `[0, TAU)`.) -/
def Float.is_sign_negative : Float → Prop
  | .finite x => x < 0
  | .negInf => True
  | _ => False

/-- Rust's `(0. ..TAU).contains(&value)`: `0 ≤ value ∧ value < TAU`, and
false on every non-finite value (IEEE comparisons with `NaN` are false,
and `inf < TAU` is false). -/
def Float.in_range : Float → Prop
  | .finite x => 0 ≤ x ∧ x < TAU
  | _ => False

/-- Modelled from the spec: the Bounded Non-Negative Value
(`PositiveFloat`), a newtype storing a single floating-point number; it is
not declared under `src/`. -/
structure PositiveFloat where
  val : Float

/-- Modelled from the spec: `PositiveFloat`'s conversion from a raw float
stores the value verbatim. -/
def PositiveFloat.fromFloat (v : Float) : PositiveFloat := ⟨v⟩

/-- Modelled from the spec: reading a `PositiveFloat` back as a raw float
returns the stored value unchanged. -/
def PositiveFloat.as_float (p : PositiveFloat) : Float := p.val

/-- The `Radian` newtype of `src/radian.rs`: wraps one `PositiveFloat`. -/
structure Radian where
  pf : PositiveFloat

/-- `Radian::as_float`: returns the stored value as a raw float. -/
def Radian.as_float (r : Radian) : Float := r.pf.as_float

open Classical in
/-- `impl From<Float> for Radian` of `src/radian.rs`: if the input lies in
`[0, TAU)` store it unchanged; otherwise reduce by `% TAU`, and for a
negative input correct the remainder by adding `TAU` and reducing `% TAU`
once more.  (The source's early `return` and `let mut modulus` are written
as nested conditionals.) -/
noncomputable def Radian.fromFloat (value : Float) : Radian :=
  if Float.in_range value then ⟨PositiveFloat.fromFloat value⟩
  else if value.is_sign_negative then
    ⟨PositiveFloat.fromFloat
      (((value.rem (Float.finite TAU)).add (Float.finite TAU)).rem (Float.finite TAU))⟩
  else
    ⟨PositiveFloat.fromFloat (value.rem (Float.finite TAU))⟩

/-- `impl MulAssign<Float> for Radian`: `*self = (self.as_float() * rhs).into()`. -/
noncomputable def Radian.mul_assign (a : Radian) (rhs : Float) : Radian :=
  Radian.fromFloat (a.as_float.mul rhs)

/-- `TAU` is positive. -/
theorem TAU_pos : 0 < TAU := by
  have := Real.pi_pos
  unfold TAU
  linarith

/-- `TAU` is non-zero. -/
theorem TAU_ne_zero : TAU ≠ 0 := ne_of_gt TAU_pos

/-- The exact remainder of a non-negative dividend by a positive divisor
lies in `[0, divisor)`. -/
theorem rem_mem_of_nonneg {x y : ℝ} (hy : 0 < y) (hx : 0 ≤ x) :
    0 ≤ x - y * ftrunc (x / y) ∧ x - y * ftrunc (x / y) < y := by
  have hdiv : 0 ≤ x / y := div_nonneg hx hy.le
  have htr : ftrunc (x / y) = (⌊x / y⌋ : ℝ) := if_pos hdiv
  have hy0 : y ≠ 0 := ne_of_gt hy
  have hfr : x - y * (⌊x / y⌋ : ℝ) = y * Int.fract (x / y) := by
    rw [Int.fract]
    field_simp
  constructor
  · rw [htr, hfr]
    exact mul_nonneg hy.le (Int.fract_nonneg _)
  · rw [htr, hfr]
    have := Int.fract_lt_one (x / y)
    calc y * Int.fract (x / y) < y * 1 := by
          exact (mul_lt_mul_left hy).mpr this
      _ = y := mul_one y

/-- The exact remainder of a negative dividend by a positive divisor lies
in `(-divisor, 0]`. -/
theorem rem_mem_of_neg {x y : ℝ} (hy : 0 < y) (hx : x < 0) :
    -y < x - y * ftrunc (x / y) ∧ x - y * ftrunc (x / y) ≤ 0 := by
  have hdiv : x / y < 0 := div_neg_of_neg_of_pos hx hy
  have htr : ftrunc (x / y) = (⌈x / y⌉ : ℝ) := if_neg (not_le.mpr hdiv)
  have hle : x / y ≤ (⌈x / y⌉ : ℝ) := Int.le_ceil _
  have hlt : (⌈x / y⌉ : ℝ) < x / y + 1 := Int.ceil_lt_add_one _
  constructor
  · rw [htr]
    have h1 : y * (⌈x / y⌉ : ℝ) < y * (x / y + 1) := (mul_lt_mul_left hy).mpr hlt
    have h2 : y * (x / y + 1) = x + y := by
      field_simp
    nlinarith
  · rw [htr]
    have h1 : y * (x / y) ≤ y * (⌈x / y⌉ : ℝ) := (mul_le_mul_left hy).mpr hle
    have h2 : y * (x / y) = x := by
      field_simp
    nlinarith

/-- Branch lemma: the fast path of `From<Float>` stores an in-range input
unchanged. -/
theorem fromFloat_of_in_range {x : ℝ} (h0 : 0 ≤ x) (h1 : x < TAU) :
    Radian.fromFloat (Float.finite x) = ⟨⟨Float.finite x⟩⟩ := by
  unfold Radian.fromFloat
  rw [if_pos (show Float.in_range (Float.finite x) from ⟨h0, h1⟩)]
  rfl

/-- Reduction of `%` at a finite dividend and the divisor `TAU`. -/
theorem rem_finite_TAU (x : ℝ) :
    Float.rem (Float.finite x) (Float.finite TAU) =
      Float.finite (x - TAU * ftrunc (x / TAU)) := by
  simp only [Float.rem]
  rw [if_neg TAU_ne_zero]

/-- Branch lemma: a non-negative input at or above `TAU` is reduced by a
single `% TAU`. -/
theorem fromFloat_of_nonneg_not_lt {x : ℝ} (h0 : 0 ≤ x) (h1 : ¬ x < TAU) :
    Radian.fromFloat (Float.finite x) =
      ⟨⟨Float.finite (x - TAU * ftrunc (x / TAU))⟩⟩ := by
  unfold Radian.fromFloat
  rw [if_neg (show ¬ Float.in_range (Float.finite x) from fun h => h1 h.2),
    if_neg (show ¬ Float.is_sign_negative (Float.finite x) from not_lt.mpr h0),
    rem_finite_TAU]
  rfl

/-- Branch lemma: a negative input goes through the double-modulo
correction `((x % TAU) + TAU) % TAU`. -/
theorem fromFloat_of_neg {x : ℝ} (hx : x < 0) :
    Radian.fromFloat (Float.finite x) =
      ⟨⟨Float.finite (x - TAU * ftrunc (x / TAU) + TAU -
        TAU * ftrunc ((x - TAU * ftrunc (x / TAU) + TAU) / TAU))⟩⟩ := by
  unfold Radian.fromFloat
  rw [if_neg (show ¬ Float.in_range (Float.finite x) from fun h => absurd h.1 (not_le.mpr hx)),
    if_pos (show Float.is_sign_negative (Float.finite x) from hx),
    rem_finite_TAU]
  show Radian.mk (PositiveFloat.fromFloat
    ((Float.add (Float.finite (x - TAU * ftrunc (x / TAU))) (Float.finite TAU)).rem
      (Float.finite TAU))) = _
  rw [show Float.add (Float.finite (x - TAU * ftrunc (x / TAU))) (Float.finite TAU) =
      Float.finite (x - TAU * ftrunc (x / TAU) + TAU) from rfl,
    rem_finite_TAU]
  rfl

/-- Main normalization lemma: on every finite input the constructor
produces a finite stored value lying in `[0, TAU)`. -/
theorem fromFloat_finite_spec (x : ℝ) :
    ∃ r : ℝ, Radian.fromFloat (Float.finite x) = ⟨⟨Float.finite r⟩⟩ ∧ 0 ≤ r ∧ r < TAU := by
  rcases lt_or_le x 0 with hx | hx
  · refine ⟨_, fromFloat_of_neg hx, ?_⟩
    obtain ⟨h1, h2⟩ := rem_mem_of_neg TAU_pos hx
    have hz : 0 ≤ x - TAU * ftrunc (x / TAU) + TAU := by linarith
    exact rem_mem_of_nonneg TAU_pos hz
  · rcases lt_or_le x TAU with h1 | h1
    · exact ⟨x, fromFloat_of_in_range hx h1, hx, h1⟩
    · refine ⟨_, fromFloat_of_nonneg_not_lt hx (not_lt.mpr h1), ?_⟩
      exact rem_mem_of_nonneg TAU_pos hx

/-- The constructor maps `NaN` to a stored `NaN`. -/
theorem fromFloat_nan : Radian.fromFloat Float.nan = ⟨⟨Float.nan⟩⟩ := by
  unfold Radian.fromFloat
  rw [if_neg (show ¬ Float.in_range Float.nan from fun h => h),
    if_neg (show ¬ Float.is_sign_negative Float.nan from fun h => h)]
  rfl

/-- The constructor maps `+∞` to a stored `NaN` (since `∞ % TAU` is
`NaN`). -/
theorem fromFloat_inf : Radian.fromFloat Float.inf = ⟨⟨Float.nan⟩⟩ := by
  unfold Radian.fromFloat
  rw [if_neg (show ¬ Float.in_range Float.inf from fun h => h),
    if_neg (show ¬ Float.is_sign_negative Float.inf from fun h => h)]
  rfl

/-- The constructor maps `-∞` to a stored `NaN` (the double-modulo branch
propagates the `NaN` produced by `-∞ % TAU`). -/
theorem fromFloat_negInf : Radian.fromFloat Float.negInf = ⟨⟨Float.nan⟩⟩ := by
  unfold Radian.fromFloat
  rw [if_neg (show ¬ Float.in_range Float.negInf from fun h => h),
    if_pos (show Float.is_sign_negative Float.negInf from trivial)]
  rfl

/-- The constructor stores `NaN` on every non-finite input. -/
theorem fromFloat_not_finite {u : Float} (hu : u.is_finite = false) :
    Radian.fromFloat u = ⟨⟨Float.nan⟩⟩ := by
  cases u with
  | finite x => exact Bool.noConfusion hu
  | nan => exact fromFloat_nan
  | inf => exact fromFloat_inf
  | negInf => exact fromFloat_negInf

/-- Multiplying any float by a non-finite float yields a non-finite
float. -/
theorem mul_not_finite (s w : Float) (hw : w.is_finite = false) :
    (s.mul w).is_finite = false := by
  cases w with
  | finite x => exact Bool.noConfusion hw
  | nan => cases s <;> rfl
  | inf =>
    cases s with
    | finite v => simp only [Float.mul]; split_ifs <;> rfl
    | nan => rfl
    | inf => rfl
    | negInf => rfl
  | negInf =>
    cases s with
    | finite v => simp only [Float.mul]; split_ifs <;> rfl
    | nan => rfl
    | inf => rfl
    | negInf => rfl

/-- C3: for every float already in `[0, 2π)` the constructor takes the
fast path and returns the input unchanged, with no modulo applied. -/
theorem identity_on_canonical (x : ℝ) (h0 : 0 ≤ x) (h1 : x < TAU) :
    (Radian.fromFloat (Float.finite x)).as_float = Float.finite x := by
  rw [fromFloat_of_in_range h0 h1]
  rfl

/-- C3 witness: the identity at the concrete canonical input `0`. -/
theorem identity_on_canonical_witness :
    (Radian.fromFloat (Float.finite 0)).as_float = Float.finite 0 :=
  identity_on_canonical 0 (le_refl 0) TAU_pos

/-- C5: construction is idempotent on every finite input: re-normalizing
an already-normalized value returns it unchanged. -/
theorem construction_idempotent (x : ℝ) :
    (Radian.fromFloat (Radian.fromFloat (Float.finite x)).as_float).as_float =
      (Radian.fromFloat (Float.finite x)).as_float := by
  obtain ⟨r, heq, h0, h1⟩ := fromFloat_finite_spec x
  rw [heq]
  show (Radian.fromFloat (Float.finite r)).as_float = Float.finite r
  rw [fromFloat_of_in_range h0 h1]
  rfl

/-- C6: constructing from exactly one full turn wraps to zero. -/
theorem full_turn_wraps_to_zero :
    (Radian.fromFloat (Float.finite TAU)).as_float = Float.finite 0 := by
  rw [fromFloat_of_nonneg_not_lt TAU_pos.le (lt_irrefl TAU)]
  show Float.finite (TAU - TAU * ftrunc (TAU / TAU)) = Float.finite 0
  rw [div_self TAU_ne_zero]
  have h1 : ftrunc (1 : ℝ) = 1 := by
    unfold ftrunc
    rw [if_pos zero_le_one, Int.floor_one]
    norm_num
  rw [h1, mul_one, sub_self]

/-- C7: a negative input goes through the double-modulo correction
`((x % TAU) + TAU) % TAU`, the result lies in `[0, 2π)`, and concretely
the value constructed from `-π` is `2π - π`. -/
theorem negative_wraps (x : ℝ) (hx : x < 0) :
    Radian.fromFloat (Float.finite x) =
      ⟨⟨(((Float.finite x).rem (Float.finite TAU)).add (Float.finite TAU)).rem
        (Float.finite TAU)⟩⟩ ∧
    (∃ r : ℝ, (Radian.fromFloat (Float.finite x)).as_float = Float.finite r ∧
      0 ≤ r ∧ r < TAU) ∧
    (Radian.fromFloat (Float.finite (-Real.pi))).as_float = Float.finite (TAU - Real.pi) := by
  refine ⟨?_, ?_, ?_⟩
  · unfold Radian.fromFloat
    rw [if_neg (show ¬ Float.in_range (Float.finite x) from fun h => absurd h.1 (not_le.mpr hx)),
      if_pos (show Float.is_sign_negative (Float.finite x) from hx)]
    rfl
  · obtain ⟨r, heq, h⟩ := fromFloat_finite_spec x
    exact ⟨r, by rw [heq]; rfl, h⟩
  · have hpi := Real.pi_pos
    have h2pi : (2 : ℝ) * Real.pi ≠ 0 := ne_of_gt (by positivity)
    rw [fromFloat_of_neg (show -Real.pi < 0 by linarith)]
    have hdiv : -Real.pi / TAU = -(1 / 2 : ℝ) := by
      unfold TAU
      rw [div_eq_iff h2pi]
      ring
    have hceil : ⌈(-(1 / 2) : ℝ)⌉ = 0 := by
      rw [Int.ceil_eq_zero_iff, Set.mem_Ioc]
      constructor <;> norm_num
    have htr1 : ftrunc (-(1 / 2 : ℝ)) = 0 := by
      unfold ftrunc
      rw [if_neg (by norm_num), hceil]
      norm_num
    rw [hdiv, htr1]
    have hsum : -Real.pi - TAU * 0 + TAU = Real.pi := by
      unfold TAU
      ring
    rw [hsum]
    have hdiv2 : Real.pi / TAU = (1 / 2 : ℝ) := by
      unfold TAU
      rw [div_eq_iff h2pi]
      ring
    have hfl : ⌊((1 : ℝ) / 2)⌋ = 0 := by
      rw [Int.floor_eq_zero_iff, Set.mem_Ico]
      constructor <;> norm_num
    have htr2 : ftrunc ((1 : ℝ) / 2) = 0 := by
      unfold ftrunc
      rw [if_pos (by norm_num), hfl]
      norm_num
    rw [hdiv2, htr2]
    have hfin : Real.pi - TAU * 0 = TAU - Real.pi := by
      unfold TAU
      ring
    rw [hfin]
    rfl

/-- C7 witness: the property at the concrete negative input `-π`. -/
theorem negative_wraps_witness :
    Radian.fromFloat (Float.finite (-Real.pi)) =
      ⟨⟨(((Float.finite (-Real.pi)).rem (Float.finite TAU)).add (Float.finite TAU)).rem
        (Float.finite TAU)⟩⟩ ∧
    (∃ r : ℝ, (Radian.fromFloat (Float.finite (-Real.pi))).as_float = Float.finite r ∧
      0 ≤ r ∧ r < TAU) ∧
    (Radian.fromFloat (Float.finite (-Real.pi))).as_float = Float.finite (TAU - Real.pi) :=
  negative_wraps (-Real.pi) (neg_lt_zero.mpr Real.pi_pos)

/-- C8: an input exceeding one full turn is reduced by a single `% TAU`
with no further correction; concretely `2π + π/2` wraps to `π/2`. -/
theorem overflow_wraps :
    (Radian.fromFloat (Float.finite (TAU + Real.pi / 2))).as_float =
      Float.finite (Real.pi / 2) ∧
    ∀ x : ℝ, 0 ≤ x → ¬ x < TAU →
      Radian.fromFloat (Float.finite x) = ⟨⟨(Float.finite x).rem (Float.finite TAU)⟩⟩ := by
  constructor
  · have hpi := Real.pi_pos
    have h2pi : (2 : ℝ) * Real.pi ≠ 0 := ne_of_gt (by positivity)
    have htau := TAU_pos
    have h0 : 0 ≤ TAU + Real.pi / 2 := by linarith
    have h1 : ¬ TAU + Real.pi / 2 < TAU := by linarith
    rw [fromFloat_of_nonneg_not_lt h0 h1]
    have hdiv : (TAU + Real.pi / 2) / TAU = (5 / 4 : ℝ) := by
      unfold TAU
      rw [div_eq_iff h2pi]
      ring
    have hfl : ⌊(5 / 4 : ℝ)⌋ = 1 := by
      rw [Int.floor_eq_iff]
      constructor <;> norm_num
    have htr : ftrunc ((5 : ℝ) / 4) = 1 := by
      unfold ftrunc
      rw [if_pos (by norm_num), hfl]
      norm_num
    rw [hdiv, htr]
    have hfin : TAU + Real.pi / 2 - TAU * 1 = Real.pi / 2 := by
      ring
    rw [hfin]
    rfl
  · intro x h0 h1
    rw [fromFloat_of_nonneg_not_lt h0 h1, rem_finite_TAU]

/-- C9: construction is a total function: on every finite raw float it
returns a radian holding a finite value in `[0, 2π)`, with no failure
indicator of any kind. -/
theorem construction_total (v : Float) (hv : v.is_finite = true) :
    ∃ r : ℝ, Radian.fromFloat v = ⟨⟨Float.finite r⟩⟩ ∧ 0 ≤ r ∧ r < TAU := by
  cases v with
  | finite x => exact fromFloat_finite_spec x
  | nan => exact Bool.noConfusion hv
  | inf => exact Bool.noConfusion hv
  | negInf => exact Bool.noConfusion hv

/-- C9 witness: totality at the concrete finite input `7`. -/
theorem construction_total_witness :
    ∃ r : ℝ, Radian.fromFloat (Float.finite 7) = ⟨⟨Float.finite r⟩⟩ ∧ 0 ≤ r ∧ r < TAU :=
  construction_total (Float.finite 7) rfl

/-- C10: non-finite inputs store `NaN`: construction from `NaN`, `+∞` and
`-∞` all yield a stored `NaN` (so the `[0, 2π)` invariant does not hold
there), and scaling any radian by a `NaN` or infinite factor leaves a
stored `NaN`. -/
theorem nonfinite_propagates :
    (Radian.fromFloat Float.nan).as_float = Float.nan ∧
    (Radian.fromFloat Float.inf).as_float = Float.nan ∧
    (Radian.fromFloat Float.negInf).as_float = Float.nan ∧
    (∀ r : ℝ, (Radian.fromFloat Float.nan).as_float ≠ Float.finite r) ∧
    ∀ a : Radian, (a.mul_assign Float.nan).as_float = Float.nan ∧
      (a.mul_assign Float.inf).as_float = Float.nan ∧
      (a.mul_assign Float.negInf).as_float = Float.nan := by
  refine ⟨?_, ?_, ?_, ?_, ?_⟩
  · rw [fromFloat_nan]
    rfl
  · rw [fromFloat_inf]
    rfl
  · rw [fromFloat_negInf]
    rfl
  · intro r h
    rw [fromFloat_nan] at h
    exact Float.noConfusion h
  · intro a
    refine ⟨?_, ?_, ?_⟩
    · show (Radian.fromFloat (a.as_float.mul Float.nan)).as_float = Float.nan
      rw [fromFloat_not_finite (mul_not_finite a.as_float Float.nan rfl)]
      rfl
    · show (Radian.fromFloat (a.as_float.mul Float.inf)).as_float = Float.nan
      rw [fromFloat_not_finite (mul_not_finite a.as_float Float.inf rfl)]
      rfl
    · show (Radian.fromFloat (a.as_float.mul Float.negInf)).as_float = Float.nan
      rw [fromFloat_not_finite (mul_not_finite a.as_float Float.negInf rfl)]
      rfl

end GlobeRs
